import Mathlib

/-!
Verification of the twitter-summary-bot core algorithms.

Shallow embedding of `src/python/src/utils.py` and `src/python/src/tweets.py`:
Python strings are modelled as `List Char`, Python `dict`s as insertion-ordered
association lists, and the unbounded recursion of the thread walk is given
explicit fuel (the Python function diverges on a cyclic reference graph, which
the embedding models as `none`).
-/

set_option maxRecDepth 10000

namespace TwitterSummaryBot

/-- ASCII whitespace recognised by Python `str.split()` with no argument. -/
def isSpace (c : Char) : Bool :=
  c == ' ' || c == '\t' || c == '\n' || c == '\r' || c == Char.ofNat 11 || c == Char.ofNat 12

/-- Worker for `pySplit`; `acc` holds the characters of the current word in
reverse order. Words are maximal runs of non-whitespace characters. -/
def splitAux : List Char → List Char → List (List Char)
  | [], acc => if acc = [] then [] else [acc.reverse]
  | c :: cs, acc =>
    if isSpace c then
      if acc = [] then splitAux cs [] else acc.reverse :: splitAux cs []
    else splitAux cs (c :: acc)

/-- Python `summary.split()` (tweets.py line 289): split on runs of whitespace,
dropping empty fragments. -/
def pySplit (s : List Char) : List (List Char) :=
  splitAux s []

/-- Python `" ".join(words)` (tweets.py line 293). -/
def joinWords : List (List Char) → List Char
  | [] => []
  | [w] => w
  | w :: ws => w ++ ' ' :: joinWords ws

/-- Sum of `len(word) + 1` over a word list; the length a word contributes to
the original string together with one separating space. -/
def sumLens (ws : List (List Char)) : Nat :=
  ws.foldr (fun w a => w.length + 1 + a) 0

/-- The word-removal loop of `limit_summary` (tweets.py lines 290-294).
The Python loop runs the index `i` from `len(words) - 1` down to `1`; here the
first argument is that index, `0` terminating the recursion. Returns `some`
of the reassigned summary when the loop breaks, `none` when the loop finishes
without the break (no assignment to `summary` happened). -/
def limitLoop (curLen : Int) (words : List (List Char)) : Nat → Int → Option (List Char)
  | 0, _ => none
  | i + 1, removed =>
    let removed2 := removed + ((words.getD (i + 1) []).length : Int) + 1
    if curLen - removed2 ≤ 280 then some ((joinWords (words.take (i + 1))).take 280)
    else limitLoop curLen words i removed2

/-- Embeds `limit_summary` (tweets.py lines 272-295). Line 285 of the source
calls `summary.replace("@GPTSummary", "GPTSummary")` but discards the result
— Python strings are immutable and the return value is not assigned — so that
call has no effect on the value returned and does not appear here. -/
def limit_summary (summary : List Char) : List Char :=
  if 280 < summary.length then
    (limitLoop (summary.length : Int) (pySplit summary)
        ((pySplit summary).length - 1) 0).getD summary
  else summary

/-- Python `s.replace("@GPTSummary", "GPTSummary")`: the rewrite whose result
tweets.py line 285 computes and then discards. Replaces left-to-right,
non-overlapping occurrences of the 11-character mention. -/
def replaceMention : List Char → List Char
  | '@' :: 'G' :: 'P' :: 'T' :: 'S' :: 'u' :: 'm' :: 'm' :: 'a' :: 'r' :: 'y' :: rest =>
    'G' :: 'P' :: 'T' :: 'S' :: 'u' :: 'm' :: 'm' :: 'a' :: 'r' :: 'y' :: replaceMention rest
  | c :: cs => c :: replaceMention cs
  | [] => []

/-- Python `dict` lookup on an insertion-ordered association list. -/
def dictFind {α : Type} : List (Nat × α) → Nat → Option α
  | [], _ => none
  | (k2, v) :: rest, k => if k2 = k then some v else dictFind rest k

/-- `tree[parent].append(child)` on a `defaultdict(list)` (utils.py line 21):
appends to the entry in place when the key is present, otherwise creates the
key at the end of the insertion order. -/
def dictAppend : List (Nat × List Nat) → Nat → Nat → List (Nat × List Nat)
  | [], k, v => [(k, [v])]
  | (k2, l) :: rest, k, v =>
    if k2 = k then (k2, l ++ [v]) :: rest else (k2, l) :: dictAppend rest k v

/-- Embeds `build_tweet_tree` (utils.py lines 5-22): folds the child ↦ parent
mapping in iteration order, appending each child under its parent. -/
def build_tweet_tree (parents : List (Nat × Nat)) : List (Nat × List Nat) :=
  parents.foldl (fun t cp => dictAppend t cp.2 cp.1) []

/-- Python `sorted` on identifiers: ascending order. -/
def pySort (l : List Nat) : List Nat :=
  List.insertionSort (· ≤ ·) l

/-- The flattening comprehension of `enumerate_tweet_tree` (utils.py lines
46-48): concatenates the enumerations of the given children, in order;
`none` when any child's enumeration runs out of fuel. -/
def enumChildren (f : Nat → Option (List Nat)) : List Nat → Option (List Nat)
  | [] => some []
  | c :: cs =>
    match f c, enumChildren f cs with
    | some l, some ls => some (l ++ ls)
    | _, _ => none

/-- Fuelled recursion of `enumerate_tweet_tree` over a fixed tree. -/
def enumGo (tree : List (Nat × List Nat)) : Nat → Nat → Option (List Nat)
  | 0, _ => none
  | fuel + 1, root =>
    match dictFind tree root with
    | none => some [root]
    | some children =>
      (enumChildren (fun c => enumGo tree fuel c) (pySort children)).map
        (fun l => root :: l)

/-- Embeds `enumerate_tweet_tree` (utils.py lines 25-49) with explicit
recursion fuel: the Python recursion is unbounded and diverges on a cyclic
graph, which is modelled by `none` when the fuel runs out. -/
def enumerate_tweet_tree (fuel : Nat) (tree : List (Nat × List Nat)) (root : Nat) :
    Option (List Nat) :=
  enumGo tree fuel root

/-- The children of `k` recorded by the child ↦ parent mapping `parents`, in
iteration order. -/
def childrenOf (parents : List (Nat × Nat)) (k : Nat) : List Nat :=
  parents.filterMap (fun cp => if cp.2 = k then some cp.1 else none)

/-- Embeds the final comprehension of `get_tweet_thread` (tweets.py lines
227-229): `[tweets[x] for x in ids if x != tagging_id]`. The only guard in
the source is `x != tagging_id`; an identifier that is absent from `tweets`
raises `KeyError`, modelled as `none`. -/
def mapIdsToTexts (texts : List (Nat × String)) (taggingId : Nat) :
    List Nat → Option (List String)
  | [] => some []
  | x :: xs =>
    if x = taggingId then mapIdsToTexts texts taggingId xs
    else
      match dictFind texts x with
      | none => none
      | some t => (mapIdsToTexts texts taggingId xs).map (fun l => t :: l)

/-- Network calls the orchestrator can make, in trace order. -/
inductive NetCall where
  | fetchTweet (id : Nat)
  | searchConversation (convId : Nat)
  | summarize
  | postReply (inReplyTo : Nat)
deriving DecidableEq

/-- Failure conditions of the orchestrator. -/
inductive OrchError where
  | notFound
  | tooOld
  | emptySummary
deriving DecidableEq

/-- Inputs the orchestrator reads from its collaborators: identifiers and
origin metadata, the reply-edge data of the conversation, and the text the
summarization collaborator would return. -/
structure OrchEnv where
  taggingId : Nat
  convId : Nat
  originCreatedAt : Int
  now : Int
  parents : List (Nat × Nat)
  texts : List (Nat × String)
  summary : String
  fuel : Nat

/-- The 7-day staleness window, in seconds. -/
def sevenDays : Int := 7 * 24 * 60 * 60

/-- Modelled from the spec: the `TweetHandler` orchestrator that webhook.py
imports from tweets.py is absent from src/ (only its caller is present), so
its control flow is taken from spec §4.4. Step 1 resolves the conversation
root from the tagging message; step 2 resolves the origin message and fails
with the distinct `TooOld` error when its creation time is older than the
7-day staleness window; step 3 searches the conversation's tweets; steps 4-6
build the graph, linearize, map to texts and bound the summary, using the
functions embedded from the source; step 7 posts the reply. Returns the
outcome together with the trace of network calls made, in order. -/
def handleMention (env : OrchEnv) : Except OrchError String × List NetCall :=
  let trace := [NetCall.fetchTweet env.taggingId, NetCall.fetchTweet env.convId]
  if sevenDays < env.now - env.originCreatedAt then
    (Except.error OrchError.tooOld, trace)
  else
    let trace := trace ++ [NetCall.searchConversation env.convId]
    let tree := build_tweet_tree env.parents
    let ids := enumerate_tweet_tree env.fuel tree env.convId
    match ids.bind (mapIdsToTexts env.texts env.taggingId) with
    | none => (Except.error OrchError.notFound, trace)
    | some _ =>
      let trace := trace ++ [NetCall.summarize]
      if env.summary.isEmpty then (Except.error OrchError.emptySummary, trace)
      else
        (Except.ok (String.mk (limit_summary env.summary.data)),
          trace ++ [NetCall.postReply env.taggingId])

/-- The input refuting the claimed hard clamp of the Summary Bounder: a
281-character word followed by a one-character word. -/
def cexStr : List Char := List.replicate 281 'a' ++ [' ', 'b']

/-! ## Lemmas about the Summary Bounder -/

theorem limit_summary_of_le {s : List Char} (h : s.length ≤ 280) :
    limit_summary s = s := by
  unfold limit_summary
  rw [if_neg (by omega)]

theorem limit_summary_of_few_words {s : List Char} (h : (pySplit s).length ≤ 1) :
    limit_summary s = s := by
  unfold limit_summary
  by_cases h2 : 280 < s.length
  · rw [if_pos h2]
    have h3 : (pySplit s).length - 1 = 0 := by omega
    rw [h3]
    rfl
  · rw [if_neg h2]

theorem limitLoop_length_le (curLen : Int) (ws : List (List Char)) :
    ∀ i removed r, limitLoop curLen ws i removed = some r → r.length ≤ 280 := by
  intro i
  induction i with
  | zero =>
    intro removed r h
    simp [limitLoop] at h
  | succ n ih =>
    intro removed r h
    rw [limitLoop] at h
    split at h
    · cases h
      simp only [List.length_take]
      omega
    · exact ih _ r h

theorem limit_summary_eq_or (s : List Char) :
    limit_summary s = s ∨ (limit_summary s).length ≤ 280 := by
  by_cases h : 280 < s.length
  · have hu : limit_summary s =
        (limitLoop (s.length : Int) (pySplit s) ((pySplit s).length - 1) 0).getD s := by
      unfold limit_summary
      rw [if_pos h]
    cases hk : limitLoop (s.length : Int) (pySplit s) ((pySplit s).length - 1) 0 with
    | none =>
      left
      rw [hu, hk]
      rfl
    | some r =>
      right
      rw [hu, hk]
      exact limitLoop_length_le _ _ _ _ _ hk
  · left
    exact limit_summary_of_le (by omega)

/-! ## Claim theorems for the Summary Bounder -/

/-- C9: for every input string of length greater than 280 whose whitespace
split yields at most one word, `limit_summary` returns the input unchanged:
the removal loop runs from the last word index down to, but excluding, index
`0`, and so never executes. -/
theorem claim_single_word_unchanged (s : List Char)
    (h1 : 280 < s.length) (h2 : (pySplit s).length ≤ 1) :
    limit_summary s = s :=
  limit_summary_of_few_words h2

/-- Witness for C9 at a single word of 281 characters. -/
theorem claim_single_word_unchanged_witness :
    280 < (List.replicate 281 'a').length ∧
    (pySplit (List.replicate 281 'a')).length ≤ 1 ∧
    limit_summary (List.replicate 281 'a') = List.replicate 281 'a' :=
  ⟨by decide, by decide, claim_single_word_unchanged _ (by decide) (by decide)⟩

/-- C1 (code bug): evaluating `limit_summary` at a single word of 281
characters returns it unchanged, so the result has length 281 > 280,
contradicting the claimed bound `length(Bound(s)) ≤ 280` and the function's
own docstring ("The summary, constrained to 280 characters"). -/
theorem claim_length_bound_violated :
    limit_summary (List.replicate 281 'a') = List.replicate 281 'a' ∧
    280 < (limit_summary (List.replicate 281 'a')).length := by
  have h := limit_summary_of_few_words (s := List.replicate 281 'a') (by decide)
  refine ⟨h, ?_⟩
  rw [h]
  decide

/-- C6 (code bug): tweets.py line 285 discards the result of
`summary.replace("@GPTSummary", "GPTSummary")`, so `limit_summary` returns
the mention `"@GPTSummary"` unchanged, while the claimed rewrite would have
produced `"GPTSummary"`. -/
theorem claim_mention_rewrite_skipped :
    limit_summary "@GPTSummary".data = "@GPTSummary".data ∧
    replaceMention "@GPTSummary".data = "GPTSummary".data ∧
    "@GPTSummary".data ≠ "GPTSummary".data := by
  refine ⟨?_, ?_, ?_⟩ <;> decide

/-! ## Word-boundary analysis of the Summary Bounder -/

theorem sumLens_cons (w : List Char) (ws : List (List Char)) :
    sumLens (w :: ws) = w.length + 1 + sumLens ws := rfl

theorem sumLens_append (l1 l2 : List (List Char)) :
    sumLens (l1 ++ l2) = sumLens l1 + sumLens l2 := by
  induction l1 with
  | nil => simp [sumLens]
  | cons w ws ih =>
    simp only [List.cons_append, sumLens_cons, ih]
    omega

theorem joinWords_length : ∀ ws : List (List Char), ws ≠ [] →
    (joinWords ws).length + 1 = sumLens ws := by
  intro ws
  induction ws with
  | nil => intro h; exact absurd rfl h
  | cons w ws ih =>
    intro _
    cases ws with
    | nil => simp [joinWords, sumLens]
    | cons w2 rest =>
      have h2 := ih (by simp)
      simp only [joinWords, List.length_append, List.length_cons, sumLens_cons] at h2 ⊢
      omega

theorem splitAux_sumLens : ∀ cs acc : List Char,
    sumLens (splitAux cs acc) ≤ cs.length + acc.length + 1 := by
  intro cs
  induction cs with
  | nil =>
    intro acc
    by_cases h : acc = []
    · simp [splitAux, h, sumLens]
    · simp [splitAux, h, sumLens_cons, sumLens]
  | cons c cs ih =>
    intro acc
    simp only [splitAux]
    by_cases hc : isSpace c
    · rw [if_pos hc]
      by_cases h : acc = []
      · rw [if_pos h]
        have := ih []
        simp only [List.length_nil, List.length_cons] at *
        omega
      · rw [if_neg h]
        have := ih []
        simp only [sumLens_cons, List.length_reverse, List.length_cons,
          List.length_nil] at *
        omega
    · rw [if_neg hc]
      have := ih (c :: acc)
      simp only [List.length_cons] at *
      omega

theorem pySplit_sumLens (s : List Char) : sumLens (pySplit s) ≤ s.length + 1 := by
  have h := splitAux_sumLens s []
  simpa [pySplit] using h

theorem limitLoop_some_spec (curLen : Int) (ws : List (List Char))
    (hcur : (sumLens ws : Int) ≤ curLen + 1) :
    ∀ i removed r, i < ws.length →
      removed = (sumLens (ws.drop (i + 1)) : Int) →
      limitLoop curLen ws i removed = some r →
      ∃ j, 1 ≤ j ∧ j < ws.length ∧ r = joinWords (ws.take j) ∧
        (joinWords (ws.take j)).length ≤ 280 := by
  intro i
  induction i with
  | zero =>
    intro removed r _ _ h
    simp [limitLoop] at h
  | succ n ih =>
    intro removed r hi hrem h
    simp only [limitLoop] at h
    have hlt : n + 1 < ws.length := hi
    have hdrop := List.drop_eq_getElem_cons hlt
    have hgetD := List.getD_eq_getElem ws [] hlt
    have hrem2 : removed + ((ws.getD (n + 1) []).length : Int) + 1 =
        (sumLens (ws.drop (n + 1)) : Int) := by
      rw [hgetD, hrem, hdrop, sumLens_cons]
      push_cast
      ring
    split at h
    · rename_i hcond
      cases h
      have htake : ws.take (n + 1) ≠ [] := by
        cases ws with
        | nil => simp at hlt
        | cons w rest => simp [List.take]
      have hjoin : (joinWords (ws.take (n + 1))).length + 1 =
          sumLens (ws.take (n + 1)) := joinWords_length _ htake
      have hsplit : sumLens (ws.take (n + 1)) + sumLens (ws.drop (n + 1)) =
          sumLens ws := by
        rw [← sumLens_append, List.take_append_drop]
      have hcond2 : curLen - (sumLens (ws.drop (n + 1)) : Int) ≤ 280 := by
        rw [← hrem2]
        exact hcond
      have hle : (joinWords (ws.take (n + 1))).length ≤ 280 := by omega
      exact ⟨n + 1, by omega, hlt, (List.take_of_length_le hle).symm ▸ rfl, hle⟩
    · exact ih _ r (by omega) hrem2 h

/-- C8 (amended): the Summary Bounder never ends in the middle of a word of
its input: the output is either the input unchanged or the single-space join
of a proper nonempty prefix of the input's words, of length at most 280 — the
final hard character clamp never truncates. -/
theorem claim_bound_word_boundary (s : List Char) :
    limit_summary s = s ∨
    ∃ j, 1 ≤ j ∧ j < (pySplit s).length ∧
      limit_summary s = joinWords ((pySplit s).take j) ∧
      (limit_summary s).length ≤ 280 := by
  by_cases h : 280 < s.length
  · have hu : limit_summary s =
        (limitLoop (s.length : Int) (pySplit s) ((pySplit s).length - 1) 0).getD s := by
      unfold limit_summary
      rw [if_pos h]
    cases hk : limitLoop (s.length : Int) (pySplit s) ((pySplit s).length - 1) 0 with
    | none =>
      left
      rw [hu, hk]
      rfl
    | some r =>
      right
      have hlen : 0 < (pySplit s).length := by
        by_contra h0
        have h1 : (pySplit s).length - 1 = 0 := by omega
        rw [h1] at hk
        simp [limitLoop] at hk
      have hcur : (sumLens (pySplit s) : Int) ≤ (s.length : Int) + 1 := by
        exact_mod_cast pySplit_sumLens s
      have hrem : (0 : Int) = (sumLens ((pySplit s).drop ((pySplit s).length - 1 + 1)) : Int) := by
        have h1 : (pySplit s).length - 1 + 1 = (pySplit s).length := by omega
        rw [h1]
        simp [sumLens]
      obtain ⟨j, hj1, hj2, hj3, hj4⟩ :=
        limitLoop_some_spec (s.length : Int) (pySplit s) hcur
          ((pySplit s).length - 1) 0 r (by omega) hrem hk
      refine ⟨j, hj1, hj2, ?_, ?_⟩
      · rw [hu, hk, Option.getD_some, hj3]
      · rw [hu, hk, Option.getD_some, hj3]
        exact hj4
  · left
    exact limit_summary_of_le (by omega)

/-- C8 (counterexample): on a 281-character word followed by a one-character
word, the remaining word alone exceeds 280 characters, yet `limit_summary`
returns the whole input unchanged — not the claimed hard 280-character prefix
of that word. -/
theorem claim_bound_clamp_cex :
    280 < cexStr.length ∧
    (pySplit cexStr).getD 0 [] = List.replicate 281 'a' ∧
    280 < (List.replicate 281 'a').length ∧
    limit_summary cexStr = cexStr ∧
    limit_summary cexStr ≠ List.take 280 (List.replicate 281 'a') := by
  refine ⟨by decide, by decide, by decide, by decide, by decide⟩

/-- C7: the Summary Bounder is idempotent:
`limit_summary (limit_summary s) = limit_summary s` for every string. -/
theorem claim_bound_idempotent (s : List Char) :
    limit_summary (limit_summary s) = limit_summary s := by
  rcases limit_summary_eq_or s with h | h
  · rw [h]
    exact h
  · exact limit_summary_of_le h

/-! ## Lemmas about the Reference Graph Builder and the Thread Linearizer -/

theorem enumChildren_of_forall2 (f : Nat → Option (List Nat)) :
    ∀ cs ls, List.Forall₂ (fun c l => f c = some l) cs ls →
      enumChildren f cs = some ls.flatten := by
  intro cs ls h
  induction h with
  | nil => rfl
  | cons h1 _ ih => simp only [enumChildren, h1, ih, List.flatten_cons]

theorem dictFind_dictAppend (d : List (Nat × List Nat)) (k v j : Nat) :
    dictFind (dictAppend d k v) j =
      if k = j then some ((dictFind d j).getD [] ++ [v]) else dictFind d j := by
  induction d with
  | nil => by_cases h : k = j <;> simp [dictAppend, dictFind, h]
  | cons e rest ih =>
    obtain ⟨k2, l⟩ := e
    by_cases h2 : k2 = k
    · subst h2
      by_cases h : k2 = j <;> simp [dictAppend, dictFind, h]
    · by_cases h : k2 = j
      · subst h
        have hkj : ¬k = k2 := fun hh => h2 hh.symm
        simp [dictAppend, dictFind, h2, hkj]
      · simp only [dictAppend, if_neg h2, dictFind, if_neg h]
        exact ih

theorem childrenOf_cons (c pa k : Nat) (rest : List (Nat × Nat)) :
    childrenOf ((c, pa) :: rest) k =
      (if pa = k then [c] else []) ++ childrenOf rest k := by
  simp only [childrenOf, List.filterMap_cons]
  split <;> simp_all

theorem dictFind_foldl (p : List (Nat × Nat)) :
    ∀ (t : List (Nat × List Nat)) (k : Nat),
      dictFind (p.foldl (fun t cp => dictAppend t cp.2 cp.1) t) k =
        if dictFind t k = none ∧ childrenOf p k = [] then none
        else some ((dictFind t k).getD [] ++ childrenOf p k) := by
  induction p with
  | nil =>
    intro t k
    simp only [List.foldl_nil, childrenOf, List.filterMap_nil]
    cases h : dictFind t k with
    | none => simp
    | some l => simp
  | cons cp rest ih =>
    intro t k
    obtain ⟨c, pa⟩ := cp
    simp only [List.foldl_cons]
    rw [ih, dictFind_dictAppend, childrenOf_cons]
    by_cases hpa : pa = k
    · simp only [if_pos hpa]
      cases h : dictFind t k <;> simp [List.append_assoc]
    · simp only [if_neg hpa, List.nil_append]

theorem dictFind_build (p : List (Nat × Nat)) (k : Nat) :
    dictFind (build_tweet_tree p) k =
      if childrenOf p k = [] then none else some (childrenOf p k) := by
  have h := dictFind_foldl p [] k
  simp only [build_tweet_tree]
  rw [h]
  simp [dictFind]

theorem pySort_perm_eq {l1 l2 : List Nat} (h : l1.Perm l2) : pySort l1 = pySort l2 :=
  List.eq_of_perm_of_sorted
    (((List.perm_insertionSort _ l1).trans h).trans (List.perm_insertionSort _ l2).symm)
    (List.sorted_insertionSort _ l1) (List.sorted_insertionSort _ l2)

theorem enumChildren_congr {f g : Nat → Option (List Nat)} (h : ∀ c, f c = g c) :
    ∀ cs, enumChildren f cs = enumChildren g cs := by
  intro cs
  induction cs with
  | nil => rfl
  | cons c cs ih => simp only [enumChildren, h c, ih]

theorem enumGo_congr (t1 t2 : List (Nat × List Nat))
    (h : ∀ k, Option.map pySort (dictFind t1 k) = Option.map pySort (dictFind t2 k)) :
    ∀ fuel root, enumGo t1 fuel root = enumGo t2 fuel root := by
  intro fuel
  induction fuel with
  | zero => intro root; rfl
  | succ n ih =>
    intro root
    have hk := h root
    cases h1 : dictFind t1 root with
    | none =>
      cases h2 : dictFind t2 root with
      | none => simp [enumGo, h1, h2]
      | some c2 => rw [h1, h2] at hk; simp at hk
    | some c1 =>
      cases h2 : dictFind t2 root with
      | none => rw [h1, h2] at hk; simp at hk
      | some c2 =>
        rw [h1, h2] at hk
        simp only [Option.map_some'] at hk
        replace hk := Option.some.inj hk
        simp only [enumGo, h1, h2]
        rw [hk, enumChildren_congr ih (pySort c2)]

theorem build_map_pySort_eq (p1 p2 : List (Nat × Nat)) (h : p1.Perm p2) (k : Nat) :
    Option.map pySort (dictFind (build_tweet_tree p1) k) =
      Option.map pySort (dictFind (build_tweet_tree p2) k) := by
  have hperm : (childrenOf p1 k).Perm (childrenOf p2 k) := h.filterMap _
  rw [dictFind_build, dictFind_build]
  by_cases h1 : childrenOf p1 k = []
  · have h2 : childrenOf p2 k = [] := by
      rw [h1] at hperm
      exact hperm.symm.eq_nil
    rw [if_pos h1, if_pos h2]
  · have h2 : childrenOf p2 k ≠ [] := by
      intro h0
      rw [h0] at hperm
      exact h1 hperm.eq_nil
    rw [if_neg h1, if_neg h2]
    simp only [Option.map_some']
    exact congrArg some (pySort_perm_eq hperm)

/-! ## Claim theorems for the graph builder and linearizer -/

/-- C4: the Thread Linearizer returns `[root]` when the root has no recorded
children; otherwise it returns `[root]` followed by the concatenation, over
the root's children in ascending identifier order, of each child's
linearization; in particular, for parents `{2:1, 3:1, 4:2}` and root `1` it
returns `[1, 2, 4, 3]`. -/
theorem claim_linearizer_cases :
    (∀ fuel tree root, dictFind tree root = none →
        enumerate_tweet_tree (fuel + 1) tree root = some [root]) ∧
    (∀ fuel tree root ch ls, dictFind tree root = some ch →
        List.Forall₂ (fun c l => enumerate_tweet_tree fuel tree c = some l)
          (pySort ch) ls →
        enumerate_tweet_tree (fuel + 1) tree root = some (root :: ls.flatten)) ∧
    enumerate_tweet_tree 5 (build_tweet_tree [(2, 1), (3, 1), (4, 2)]) 1 =
      some [1, 2, 4, 3] := by
  refine ⟨?_, ?_, by decide⟩
  · intro fuel tree root h
    simp [enumerate_tweet_tree, enumGo, h]
  · intro fuel tree root ch ls h hf
    have h2 : enumChildren (fun c => enumGo tree fuel c) (pySort ch) = some ls.flatten :=
      enumChildren_of_forall2 _ _ _ hf
    simp [enumerate_tweet_tree, enumGo, h, h2]

/-- Witness for C4's recursive case at the tree `{1: [2]}`. -/
theorem claim_linearizer_cases_witness :
    dictFind [(1, [2])] 1 = some [2] ∧
    enumerate_tweet_tree 2 [(1, [2])] 1 = some [1, 2] :=
  ⟨by decide, by
    have h := claim_linearizer_cases.2.1 1 [(1, [2])] 1 [2] [[2]] (by decide)
      (List.Forall₂.cons (by decide) List.Forall₂.nil)
    simpa using h⟩

/-- C10: whenever the Thread Linearizer returns (fuel suffices, which the
Python recursion needs to terminate), the result is a non-empty list whose
first element is the root identifier. -/
theorem claim_linearizer_root_head (fuel : Nat) (tree : List (Nat × List Nat))
    (root : Nat) (l : List Nat) (h : enumerate_tweet_tree fuel tree root = some l) :
    l ≠ [] ∧ l.head? = some root := by
  cases fuel with
  | zero => simp [enumerate_tweet_tree, enumGo] at h
  | succ n =>
    simp only [enumerate_tweet_tree, enumGo] at h
    cases hf : dictFind tree root with
    | none =>
      rw [hf] at h
      cases h
      exact ⟨by simp, rfl⟩
    | some ch =>
      rw [hf] at h
      rw [Option.map_eq_some'] at h
      obtain ⟨ls, _, rfl⟩ := h
      exact ⟨by simp, rfl⟩

/-- Witness for C10 at the empty tree and root `7`. -/
theorem claim_linearizer_root_head_witness :
    ([7] : List Nat) ≠ [] ∧ ([7] : List Nat).head? = some 7 :=
  claim_linearizer_root_head 1 [] 7 [7] (by decide)

/-- C5: building the Reference Graph and linearizing is deterministic: two
child ↦ parent mappings that are equal as mappings (entries permuted) yield
identical output sequences from the same root. -/
theorem claim_pipeline_deterministic (p1 p2 : List (Nat × Nat)) (h : p1.Perm p2)
    (fuel root : Nat) :
    enumerate_tweet_tree fuel (build_tweet_tree p1) root =
      enumerate_tweet_tree fuel (build_tweet_tree p2) root := by
  simp only [enumerate_tweet_tree]
  exact enumGo_congr _ _ (build_map_pySort_eq p1 p2 h) fuel root

/-- Witness for C5 at the Scenario A mapping and a reversal of it. -/
theorem claim_pipeline_deterministic_witness :
    List.Perm ([(2, 1), (3, 1), (4, 2)] : List (Nat × Nat)) [(4, 2), (3, 1), (2, 1)] ∧
    enumerate_tweet_tree 5 (build_tweet_tree [(2, 1), (3, 1), (4, 2)]) 1 =
      enumerate_tweet_tree 5 (build_tweet_tree [(4, 2), (3, 1), (2, 1)]) 1 :=
  ⟨by decide, claim_pipeline_deterministic _ _ (by decide) 5 1⟩

/-! ## Claim theorems for the text-mapping step -/

/-- C2 (counterexample): the graph `{2 ↦ 1}` linearizes from root `1` to
`[1, 2]`; with a text collection holding only identifier `1` and tagging
identifier `3`, the mapping step hits identifier `2`, which is neither the
tagging identifier nor present in the collection, and fails with a lookup
error instead of skipping it. -/
theorem claim_mapping_lookup_failure :
    enumerate_tweet_tree 3 (build_tweet_tree [(2, 1)]) 1 = some [1, 2] ∧
    mapIdsToTexts [(1, "a")] 3 [1, 2] = none :=
  ⟨by decide, rfl⟩

/-- C2 (amended): the comprehension of tweets.py lines 227-229 skips only the
tagging identifier; it fails with a lookup error exactly when the linearized
sequence contains a non-tagging identifier that is absent from the text
collection. -/
theorem claim_mapping_skips_only_tagging (texts : List (Nat × String))
    (taggingId : Nat) (ids : List Nat) :
    (mapIdsToTexts texts taggingId ids = none ↔
      ∃ x ∈ ids, x ≠ taggingId ∧ dictFind texts x = none) ∧
    mapIdsToTexts texts taggingId (taggingId :: ids) =
      mapIdsToTexts texts taggingId ids := by
  constructor
  · induction ids with
    | nil => simp [mapIdsToTexts]
    | cons x xs ih =>
      simp only [mapIdsToTexts]
      by_cases hx : x = taggingId
      · rw [if_pos hx, ih]
        subst hx
        constructor
        · rintro ⟨y, hy, h1, h2⟩
          exact ⟨y, List.mem_cons_of_mem _ hy, h1, h2⟩
        · rintro ⟨y, hy, h1, h2⟩
          rcases List.mem_cons.mp hy with h3 | h3
          · exact absurd h3 h1
          · exact ⟨y, h3, h1, h2⟩
      · rw [if_neg hx]
        cases hf : dictFind texts x with
        | none =>
          constructor
          · intro _
            exact ⟨x, List.mem_cons_self x xs, hx, hf⟩
          · intro _
            rfl
        | some t =>
          rw [Option.map_eq_none', ih]
          constructor
          · rintro ⟨y, hy, h1, h2⟩
            exact ⟨y, List.mem_cons_of_mem _ hy, h1, h2⟩
          · rintro ⟨y, hy, h1, h2⟩
            rcases List.mem_cons.mp hy with h3 | h3
            · subst h3
              rw [hf] at h2
              cases h2
            · exact ⟨y, h3, h1, h2⟩
  · simp [mapIdsToTexts]

/-! ## Claim theorems for the orchestrator -/

/-- C3 (modelled from the spec, the `TweetHandler` orchestrator being absent
from src/): when the origin message's creation time is more than 7 days
before now, the orchestrator fails with the distinct `TooOld` error, makes
no network call fetching the conversation's tweets, and sends no reply. -/
theorem claim_too_old_gate (env : OrchEnv)
    (h : sevenDays < env.now - env.originCreatedAt) :
    (handleMention env).1 = Except.error OrchError.tooOld ∧
    NetCall.searchConversation env.convId ∉ (handleMention env).2 ∧
    ∀ id, NetCall.postReply id ∉ (handleMention env).2 := by
  have hh : handleMention env =
      (Except.error OrchError.tooOld,
        [NetCall.fetchTweet env.taggingId, NetCall.fetchTweet env.convId]) := by
    simp only [handleMention]
    rw [if_pos h]
  rw [hh]
  refine ⟨rfl, ?_, ?_⟩
  · simp
  · intro id
    simp

/-- Witness for C3 at an origin created 10 days (864000 seconds) before now. -/
theorem claim_too_old_gate_witness :
    (handleMention ⟨1, 2, 0, 864000, [], [], "s", 5⟩).1 = Except.error OrchError.tooOld ∧
    NetCall.searchConversation 2 ∉ (handleMention ⟨1, 2, 0, 864000, [], [], "s", 5⟩).2 ∧
    NetCall.postReply 1 ∉ (handleMention ⟨1, 2, 0, 864000, [], [], "s", 5⟩).2 := by
  have h := claim_too_old_gate ⟨1, 2, 0, 864000, [], [], "s", 5⟩ (by decide)
  exact ⟨h.1, h.2.1, h.2.2 1⟩

end TwitterSummaryBot
